import Mathlib

/-!
A verification development for the Frontdown backup engine.

We shallowly embed the core scan / merge / plan / apply pipeline:
* path comparison (file_methods.compare_pathnames, locale.strcoll modelled as
  an abstract linear order on path segments, with a designated fill element
  standing for the empty string used by itertools.zip_longest),
* the recursive ordered directory walk (file_methods.relativeWalkMountedDir),
* the source/compare merger (backup_procedures.BackupTree.buildFileSet),
* the action planner (backup_procedures.BackupTree.generateActions),
* the action iterator and the DELETE branch of the executor (applyActions),
* file equality (data_sources.DataSource.filesEq) and the final
  success verdict of the backup phase (backup_job.BackupJob.performBackupPhase).

Machine conventions: modification times are integers counting microseconds
(Python datetime has exactly microsecond resolution); file sizes are integers;
paths are lists of segments over a linearly ordered segment type sigma, where
the order models locale-aware collation for one fixed locale.
-/

namespace Frontdown

/-- basics.BACKUP_MODE -/
inductive BACKUP_MODE where
  | HARDLINK
  | MIRROR
  | SAVE
deriving DecidableEq, Repr

/-- basics.COMPARE_METHOD -/
inductive COMPARE_METHOD where
  | MODDATE
  | SIZE
  | BYTES
deriving DecidableEq, Repr

/-- basics.ACTION -/
inductive ACTION where
  | COPY
  | HARDLINK
  | DELETE
deriving DecidableEq, Repr

/-- basics.HTMLFLAG -/
inductive HTMLFLAG where
  | NEW
  | IN_NEW_DIR
  | MODIFIED
  | EXISTING_DIR
  | NEW_DIR
  | EMPTY_DIR
  | NONE
deriving DecidableEq, Repr

variable {σ : Type} [LinearOrder σ]

/-- Model of locale.strcoll for one fixed locale: the collation order is the
linear order on the segment type, and the returned int is the sign. -/
def strcoll (a b : σ) : Int :=
  if a < b then -1 else if b < a then 1 else 0

/-- The tail of compare_pathnames once the first path is exhausted: the
remaining parts of the second path are compared against the fill value. -/
def cpNilAgainst (eps : σ) : List σ → Int
  | [] => 0
  | b :: bs => if strcoll eps b ≠ 0 then strcoll eps b else cpNilAgainst eps bs

/-- file_methods.compare_pathnames: compare two relative paths part by part
with locale.strcoll, where itertools.zip_longest pads the shorter path with
the fill value of the empty string (modelled by the parameter eps). -/
def compare_pathnames (eps : σ) : List σ → List σ → Int
  | [], r => cpNilAgainst eps r
  | a :: as, [] =>
    if strcoll a eps ≠ 0 then strcoll a eps else compare_pathnames eps as []
  | a :: as, b :: bs =>
    if strcoll a b ≠ 0 then strcoll a b else compare_pathnames eps as bs

/-- file_methods.FileMetadata. modTime is an aware instant in microseconds,
fileSize the size in bytes as reported by the scan. -/
structure FileMetadata (σ : Type) where
  relPath : List σ
  isDirectory : Bool
  modTime : Int
  fileSize : Int
deriving DecidableEq, Repr

/-- backup_procedures.FileDirectory: a scanned entry tagged with its presence
in the source and in the compare directory. -/
structure FileDirectory (σ : Type) where
  data : FileMetadata σ
  inSourceDir : Bool
  inCompareDir : Bool
deriving DecidableEq, Repr

/-- backup_procedures.FileDirectory.relPath -/
def FileDirectory.relPath (fd : FileDirectory σ) : List σ := fd.data.relPath

/-- backup_procedures.FileDirectory.isDirectory -/
def FileDirectory.isDirectory (fd : FileDirectory σ) : Bool := fd.data.isDirectory

/-- backup_procedures.FileDirectory.modTime -/
def FileDirectory.modTime (fd : FileDirectory σ) : Int := fd.data.modTime

/-- A source scan entry as appended by buildFileSet:
FileDirectory(data=fileData, inSourceDir=True, inCompareDir=False). -/
def mkSourceEntry (d : FileMetadata σ) : FileDirectory σ :=
  ⟨d, true, false⟩

/-- A compare-only entry as inserted by buildFileSet:
FileDirectory(data=file, inSourceDir=False, inCompareDir=True). -/
def mkCompareEntry (d : FileMetadata σ) : FileDirectory σ :=
  ⟨d, false, true⟩

/-- buildFileSet step 2: fileDirSet[insertIndex].inCompareDir = True. -/
def markCompare (fd : FileDirectory σ) : FileDirectory σ :=
  { fd with inCompareDir := true }

/-- One iteration of the compare loop of backup_procedures.BackupTree.buildFileSet,
processing a single entry c of the compare walk.  The mutable list
fileDirSet with its cursor insertIndex is represented as the pair
(done, rest): done holds fileDirSet[0 : insertIndex] in reverse, rest holds
fileDirSet[insertIndex :].  Step 1 skips ahead while c compares greater than
the entry at the cursor, step 2 marks an equal entry as present in the
compare directory, step 3 inserts a compare-only entry at the cursor. -/
def mergeOne (eps : σ) (c : FileMetadata σ) :
    List (FileDirectory σ) → List (FileDirectory σ) →
    List (FileDirectory σ) × List (FileDirectory σ)
  | done, [] => (mkCompareEntry c :: done, [])
  | done, fd :: rest =>
    if compare_pathnames eps c.relPath fd.relPath > 0 then
      mergeOne eps c (fd :: done) rest
    else if compare_pathnames eps c.relPath fd.relPath = 0 then
      (markCompare fd :: done, rest)
    else
      (mkCompareEntry c :: done, fd :: rest)

/-- The compare loop of backup_procedures.BackupTree.buildFileSet: fold
mergeOne over the entries of the compare walk; at the end the merged list is
the processed prefix followed by the remaining source entries. -/
def mergeCompare (eps : σ) :
    List (FileMetadata σ) → List (FileDirectory σ) → List (FileDirectory σ) →
    List (FileDirectory σ)
  | [], done, rest => done.reverse ++ rest
  | c :: cs, done, rest =>
    let dr := mergeOne eps c done rest
    mergeCompare eps cs dr.1 dr.2

/-- backup_procedures.BackupTree.buildFileSet: collect the source scan into
source-only entries; if a compare directory is configured, merge the compare
walk into the list, otherwise leave the source list as is. -/
def buildFileSet (eps : σ) (compareDirExists : Bool)
    (sourceScan compareScan : List (FileMetadata σ)) : List (FileDirectory σ) :=
  let fileDirSet := sourceScan.map mkSourceEntry
  if compareDirExists then mergeCompare eps compareScan [] fileDirSet
  else fileDirSet

/-- The restriction of a merged list to the entries present in the source
directory, projected to their metadata. -/
def srcData (l : List (FileDirectory σ)) : List (FileMetadata σ) :=
  (l.filter fun fd => fd.inSourceDir).map fun fd => fd.data

/-- The restriction of a merged list to the entries present in the compare
directory, projected to their relative paths. -/
def cmpPaths (l : List (FileDirectory σ)) : List (List σ) :=
  (l.filter fun fd => fd.inCompareDir).map fun fd => fd.data.relPath

/-- A mounted filesystem subtree as enumerated by os.scandir: an entry is a
file (with its stat data), a directory (with stat data and children), or
something that is neither (the error branch of relativeWalkMountedDir).
st_mtime is in microseconds, st_size in bytes, both as reported by os.stat. -/
inductive FSTree (σ : Type) where
  | file (name : σ) (st_size st_mtime : Int)
  | dir (name : σ) (st_size st_mtime : Int) (children : List (FSTree σ))
  | other (name : σ)
deriving Repr

/-- os.DirEntry.name -/
def FSTree.name : FSTree σ → σ
  | .file n _ _ => n
  | .dir n _ _ _ => n
  | .other n => n

/-- The sort key of relativeWalkMountedDir:
sorted(os.scandir(path), key=lambda x: locale.strxfrm(x.name)), i.e. the
collation order on entry names. -/
def nameLE (a b : FSTree σ) : Prop := a.name ≤ b.name

instance : DecidableRel (nameLE (σ := σ)) := fun a b => by
  unfold nameLE; infer_instance

/-- sorted(os.scandir(path), key=lambda x: locale.strxfrm(x.name)) -/
def sortScandir (l : List (FSTree σ)) : List (FSTree σ) := l.insertionSort nameLE

/-- The per-entry body of file_methods.relativeWalkMountedDir, walking one
scandir entry of the directory whose path relative to startPath is rel.
excl models is_excluded(relPath, excludePaths); statFail models a failing
stat_and_permission_check (the entry is skipped and counted).  Files and
directories yield their metadata with fileSize = statResult.st_size;
directories then recurse; other entries only log an error. -/
def walkEntry (excl statFail : List σ → Bool) : List σ → FSTree σ → List (FileMetadata σ)
  | rel, .file n sz mt =>
    if excl (rel ++ [n]) then [] else if statFail (rel ++ [n]) then []
    else [⟨rel ++ [n], false, mt, sz⟩]
  | rel, .other n =>
    if excl (rel ++ [n]) then [] else if statFail (rel ++ [n]) then [] else []
  | rel, .dir n sz mt children =>
    if excl (rel ++ [n]) then [] else if statFail (rel ++ [n]) then []
    else ⟨rel ++ [n], true, mt, sz⟩ ::
      (sortScandir children).attach.flatMap
        (fun c => walkEntry excl statFail (rel ++ [n]) c.1)
termination_by _ t => sizeOf t
decreasing_by
  have h1 : c.1 ∈ sortScandir children := c.2
  have h2 : c.1 ∈ children :=
    (List.mem_insertionSort (r := nameLE) (l := children)).mp h1
  have h3 := List.sizeOf_lt_of_mem h2
  simp only [FSTree.dir.sizeOf_spec]
  omega

/-- The loop of relativeWalkMountedDir over the sorted scandir listing of one
directory. -/
def walkList (excl statFail : List σ → Bool) (rel : List σ)
    (entries : List (FSTree σ)) : List (FileMetadata σ) :=
  (sortScandir entries).flatMap (walkEntry excl statFail rel)

/-- file_methods.relativeWalkMountedDir with startPath = path: if the root is
not a directory nothing is yielded, otherwise its entries are walked (the
root itself is not yielded). -/
def relativeWalkMountedDir (excl statFail : List σ → Bool) :
    FSTree σ → List (FileMetadata σ)
  | .dir _ _ _ cs => walkList excl statFail [] cs
  | _ => []

/-- Well-formedness of a scanned tree: every entry name is strictly greater
than the fill element (real file names are nonempty strings, and
strcoll(s, fill) > 0 for nonempty s), and the names within any directory are
distinct (guaranteed by the filesystem). -/
inductive FSTree.Valid (eps : σ) : FSTree σ → Prop where
  | file : ∀ {n : σ} {sz mt : Int}, eps < n → Valid eps (.file n sz mt)
  | other : ∀ {n : σ}, eps < n → Valid eps (.other n)
  | dir : ∀ {n : σ} {sz mt : Int} {cs : List (FSTree σ)}, eps < n →
      (cs.map FSTree.name).Nodup → (∀ c ∈ cs, Valid eps c) →
      Valid eps (.dir n sz mt cs)

/-- All segments of a path are real (nonempty) names: strictly above the
fill element in the collation order. -/
abbrev validSegs (eps : σ) (l : List σ) : Prop := ∀ s ∈ l, eps < s

/-- backup_procedures.Action: one planned operation. -/
structure Action (σ : Type) where
  type : ACTION
  isDir : Bool
  relPath : List σ
  modTime : Int
  htmlFlags : HTMLFLAG
deriving DecidableEq, Repr

/-- The configuration fields consumed by BackupTree.generateActions
(config_files.ConfigFile; compare_method is folded into the filesEq oracle). -/
structure PlanConfig where
  mode : BACKUP_MODE
  versioned : Bool
  compare_with_last_backup : Bool
  copy_empty_dirs : Bool
deriving DecidableEq, Repr

/-- pathlib.PurePath.is_relative_to on segment lists: nd is a (not
necessarily proper) segmentwise prefix of rp. -/
def pathStarts : List σ → List σ → Bool
  | [], _ => true
  | _ :: _, [] => false
  | a :: as, b :: bs => if a = b then pathStarts as bs else false

/-- Python: newDir is not None and element.relPath.is_relative_to(newDir). -/
def isRelToNewDir (newDir : Option (List σ)) (rp : List σ) : Bool :=
  match newDir with
  | none => false
  | some nd => pathStarts nd rp

/-- The body of the per-element loop of backup_procedures.BackupTree.generateActions.
dirEmptyF models self.source.dirEmpty (keyed by the relative path) and
filesEqF models self.source.filesEq (keyed by the source metadata); both are
I/O oracles.  Returns the emitted actions and the updated newDir state. -/
def actionsFor (cfg : PlanConfig) (dirEmptyF : List σ → Bool)
    (filesEqF : FileMetadata σ → Bool) (newDir : Option (List σ))
    (element : FileDirectory σ) : List (Action σ) × Option (List σ) :=
  let newAction : ACTION → HTMLFLAG → Action σ := fun ty fl =>
    ⟨ty, element.isDirectory, element.relPath, element.modTime, fl⟩
  if element.inSourceDir && !element.inCompareDir then
    -- source\compare
    if isRelToNewDir newDir element.relPath then
      ([newAction .COPY .IN_NEW_DIR], newDir)
    else if element.isDirectory then
      ([newAction .COPY .NEW_DIR], some element.relPath)
    else
      ([newAction .COPY .NEW], newDir)
  else if element.inSourceDir && element.inCompareDir then
    -- source&compare
    if element.isDirectory then
      (if cfg.versioned && cfg.compare_with_last_backup then
        (if dirEmptyF element.relPath then
          (if cfg.copy_empty_dirs then [newAction .COPY .EMPTY_DIR] else [])
        else [newAction .COPY .EXISTING_DIR])
      else [], newDir)
    else
      (if filesEqF element.data then
        (if cfg.mode = .HARDLINK then [newAction .HARDLINK .NONE] else [])
      else [newAction .COPY .MODIFIED], newDir)
  else if !element.inSourceDir && element.inCompareDir then
    -- compare\source
    (if cfg.mode = .MIRROR && (!cfg.compare_with_last_backup || !cfg.versioned) then
      [newAction .DELETE .NONE]
    else [], newDir)
  else
    ([], newDir)

/-- backup_procedures.BackupTree.generateActions: iterate over the merged
fileDirSet threading the newDir state and concatenating the emitted actions. -/
def generateActions (cfg : PlanConfig) (dirEmptyF : List σ → Bool)
    (filesEqF : FileMetadata σ → Bool) :
    List (FileDirectory σ) → Option (List σ) → List (Action σ)
  | [], _ => []
  | element :: rest, newDir =>
    let p := actionsFor cfg dirEmptyF filesEqF newDir element
    p.1 ++ generateActions cfg dirEmptyF filesEqF rest p.2

/-- applyActions.iterate_actions: all non-DELETE actions in original order,
then the DELETE actions in reverse order. -/
def iterate_actions (actions : List (Action σ)) : List (Action σ) :=
  (actions.filter fun a => decide (a.type ≠ ACTION.DELETE)) ++
    (actions.reverse.filter fun a => decide (a.type = ACTION.DELETE))

/-- basics.MAXTIMEDELTA = timedelta(microseconds=1), in microseconds. -/
def MAXTIMEDELTA : Int := 1

/-- The fields of os.stat_result used by filesEq; st_mtime is already
converted by timestampToDatetime to an aware instant in microseconds. -/
structure StatResult where
  st_mtime : Int
  st_size : Int
deriving DecidableEq, Repr

/-- The comparator loop of data_sources.DataSource.filesEq, walking the
configured compare methods in order.  bytewise models self.bytewiseCmp,
where none means the call raised an exception (e.g. FTP sources raise
BackupError); the exception escapes the loop as the none result. -/
def filesEqLoop (sourceFile : FileMetadata σ) (compareStat : StatResult)
    (bytewise : Option Bool) : List COMPARE_METHOD → Option Bool
  | [] => some true
  | .MODDATE :: rest =>
    if |sourceFile.modTime - compareStat.st_mtime| ≥ MAXTIMEDELTA then some false
    else filesEqLoop sourceFile compareStat bytewise rest
  | .SIZE :: rest =>
    if sourceFile.fileSize ≠ compareStat.st_size then some false
    else filesEqLoop sourceFile compareStat bytewise rest
  | .BYTES :: rest =>
    match bytewise with
    | none => none
    | some b =>
      if !b then some false
      else filesEqLoop sourceFile compareStat bytewise rest

/-- data_sources.DataSource.filesEq: stat the compare path (statRes = none
models a raised exception), run the comparators in order; any exception is
caught, logged and turned into the result False. -/
def filesEq (sourceFile : FileMetadata σ) (statRes : Option StatResult)
    (bytewise : Option Bool) (compare_methods : List COMPARE_METHOD) : Bool :=
  match statRes with
  | none => false
  | some compareStat =>
    (filesEqLoop sourceFile compareStat bytewise compare_methods).getD false

/-- The property each comparator checks, as stated by the specification:
MODDATE passes when the modification times differ by less than 1 microsecond,
SIZE when the sizes agree, BYTES when the bytewise comparison succeeds. -/
def methodPasses (sourceFile : FileMetadata σ) (compareStat : StatResult)
    (bytewise : Option Bool) : COMPARE_METHOD → Prop
  | .MODDATE => |sourceFile.modTime - compareStat.st_mtime| < MAXTIMEDELTA
  | .SIZE => sourceFile.fileSize = compareStat.st_size
  | .BYTES => bytewise = some true

/-- backup_job.BackupMetadata (only the fields the claims touch). -/
structure BackupMetadata where
  successful : Bool
  started : Int
deriving DecidableEq, Repr

/-- The success verdict computed at the end of
backup_job.BackupJob.performBackupPhase:
backup_successful = (max_backup_errors == -1 or backup_errors <= max_backup_errors). -/
def backupPhaseSuccessful (max_backup_errors : Int) (backup_errors : Nat) : Bool :=
  decide (max_backup_errors = -1) || decide ((backup_errors : Int) ≤ max_backup_errors)

/-- The final metadata rewrite of backup_job.BackupJob.performBackupPhase:
self.metadata.successful = backup_successful, then the file is written. -/
def finalizeMetadata (meta : BackupMetadata) (max_backup_errors : Int)
    (backup_errors : Nat) : BackupMetadata :=
  { meta with successful := backupPhaseSuccessful max_backup_errors backup_errors }

/-- The state of the executor target path to_path = targetDir/relPath as
observed by the DELETE branch of applyActions.executeActionList. -/
inductive PathState where
  | missing
  | file (size : Int) (writable : Bool)
  | directory
deriving DecidableEq, Repr

/-- The statistics counters touched by the DELETE branch of
applyActions.executeActionList. -/
structure ExecStats where
  files_deleted : Nat
  bytes_deleted : Int
  backup_errors : Nat
deriving DecidableEq, Repr

/-- The DELETE branch of applyActions.executeActionList, including the
surrounding try/except: a missing target is only logged; a file is made
writable if needed and unlinked, counting its bytes; a directory is removed
recursively; files_deleted is incremented in all non-raising cases, and any
exception (unlinkOk/rmtreeOk = false) is caught and counted in backup_errors. -/
def executeDeleteAction (ps : PathState) (unlinkOk rmtreeOk : Bool)
    (st : ExecStats) : ExecStats :=
  match ps with
  | .missing => { st with files_deleted := st.files_deleted + 1 }
  | .file size _ =>
    if unlinkOk then
      { st with bytes_deleted := st.bytes_deleted + size,
                files_deleted := st.files_deleted + 1 }
    else
      { st with backup_errors := st.backup_errors + 1 }
  | .directory =>
    if rmtreeOk then { st with files_deleted := st.files_deleted + 1 }
    else { st with backup_errors := st.backup_errors + 1 }

/-! ### Concrete data for witnesses (segment type: positive naturals, fill
element 0) -/

/-- A small strictly sorted source scan: a directory, a file inside it, and
a sibling file. -/
def mergeWitnessSource : List (FileMetadata ℕ) :=
  [⟨[1], true, 0, 0⟩, ⟨[1, 2], false, 5, 10⟩, ⟨[3], false, 6, 7⟩]

/-- A small strictly sorted compare scan sharing one path with the source. -/
def mergeWitnessCompare : List (FileMetadata ℕ) :=
  [⟨[1], true, 1, 0⟩, ⟨[2], false, 2, 3⟩, ⟨[3], false, 8, 9⟩]

/-- A configuration in hardlink mode used by planner witnesses. -/
def planWitnessCfg : PlanConfig := ⟨.HARDLINK, true, true, true⟩

/-- A compare-only entry used by the C3 witness. -/
def planWitnessEl : FileDirectory ℕ := ⟨⟨[1], false, 0, 0⟩, false, true⟩

/-- A one-file scan used for source and compare by the C4 witness. -/
def hardlinkWitnessScan : List (FileMetadata ℕ) := [⟨[1], false, 3, 4⟩]

/-- A two-element top-down action list: DELETE of a directory followed by
DELETE of a file inside it. -/
def deleteWitnessActions : List (Action ℕ) :=
  [⟨ACTION.DELETE, true, [1], 0, HTMLFLAG.NONE⟩,
    ⟨ACTION.DELETE, false, [1, 2], 0, HTMLFLAG.NONE⟩]

/-- A configuration with copy_empty_dirs = false for the C8 witness. -/
def emptyDirWitnessCfg : PlanConfig := ⟨.HARDLINK, true, true, false⟩

/-- A source-only empty directory. -/
def emptyDirWitnessNew : FileDirectory ℕ := ⟨⟨[1], true, 0, 0⟩, true, false⟩

/-- An empty directory present in both source and compare. -/
def emptyDirWitnessBoth : FileDirectory ℕ := ⟨⟨[2], true, 0, 0⟩, true, true⟩

/-- A concrete two-level tree with deliberately unsorted children. -/
def walkWitnessTree : FSTree ℕ :=
  FSTree.dir 1 0 0 [FSTree.dir 3 0 0 [FSTree.file 2 5 6], FSTree.file 2 7 8]

/-! ### Lemmas about the path ordering -/

theorem strcoll_self (a : σ) : strcoll a a = 0 := by
  simp [strcoll]

theorem strcoll_eq_zero_iff {a b : σ} : strcoll a b = 0 ↔ a = b := by
  unfold strcoll
  rcases lt_trichotomy a b with h | h | h
  · simp [h, h.ne, h.not_lt]
  · simp [h]
  · simp [h, h.ne.symm, h.not_lt]

theorem strcoll_of_lt {a b : σ} (h : a < b) : strcoll a b = -1 := by
  simp [strcoll, h]

theorem strcoll_of_gt {a b : σ} (h : b < a) : strcoll a b = 1 := by
  simp [strcoll, h, h.not_lt]

theorem cp_append (eps : σ) (p q r : List σ) :
    compare_pathnames eps (p ++ q) (p ++ r) = compare_pathnames eps q r := by
  induction p with
  | nil => rfl
  | cons a as ih =>
    simpa [compare_pathnames, strcoll_self] using ih

theorem cp_head_lt (eps : σ) {a b : σ} (h : a < b) (q r : List σ) :
    compare_pathnames eps (a :: q) (b :: r) = -1 := by
  simp [compare_pathnames, strcoll_of_lt h]

theorem cp_nil_cons (eps : σ) {x : σ} (h : eps < x) (r : List σ) :
    compare_pathnames eps [] (x :: r) = -1 := by
  simp [compare_pathnames, cpNilAgainst, strcoll_of_lt h]

theorem cp_cons_nil (eps : σ) {x : σ} (h : eps < x) (r : List σ) :
    compare_pathnames eps (x :: r) [] = 1 := by
  simp [compare_pathnames, strcoll_of_gt h]

theorem cp_eq_zero_iff (eps : σ) :
    ∀ {q r : List σ}, validSegs eps q → validSegs eps r →
      (compare_pathnames eps q r = 0 ↔ q = r) := by
  intro q
  induction q with
  | nil =>
    intro r _ hr
    cases r with
    | nil => simp [compare_pathnames, cpNilAgainst]
    | cons b bs =>
      rw [cp_nil_cons eps (hr b (by simp))]
      simp
  | cons a as ih =>
    intro r hq hr
    cases r with
    | nil =>
      rw [cp_cons_nil eps (hq a (by simp))]
      simp
    | cons b bs =>
      by_cases hab : a = b
      · subst hab
        have h1 : validSegs eps as := fun s hs => hq s (by simp [hs])
        have h2 : validSegs eps bs := fun s hs => hr s (by simp [hs])
        simp [compare_pathnames, strcoll_self, ih h1 h2]
      · have : strcoll a b ≠ 0 := fun h => hab (strcoll_eq_zero_iff.mp h)
        simp only [compare_pathnames, if_pos this]
        constructor
        · intro h; exact absurd h this
        · intro h; injection h with h1 _; exact absurd h1 hab

theorem cp_self (eps : σ) (p : List σ) : compare_pathnames eps p p = 0 := by
  induction p with
  | nil => rfl
  | cons a as ih => simpa [compare_pathnames, strcoll_self] using ih

/-- A path compares strictly below any proper extension whose first added
segment is a real name. -/
theorem cp_lt_extension (eps : σ) (p : List σ) {x : σ} (h : eps < x) (u : List σ) :
    compare_pathnames eps p (p ++ x :: u) = -1 := by
  have := cp_append eps p [] (x :: u)
  simpa [cp_nil_cons eps h] using this

/-- A proper extension compares strictly above its prefix. -/
theorem cp_gt_extension (eps : σ) (p : List σ) {x : σ} (h : eps < x) (u : List σ) :
    compare_pathnames eps (p ++ x :: u) p = 1 := by
  have := cp_append eps p (x :: u) []
  simpa [cp_cons_nil eps h] using this

/-! ### The merger (buildFileSet) -/

theorem srcData_append (a b : List (FileDirectory σ)) :
    srcData (a ++ b) = srcData a ++ srcData b := by
  simp [srcData]

theorem cmpPaths_append (a b : List (FileDirectory σ)) :
    cmpPaths (a ++ b) = cmpPaths a ++ cmpPaths b := by
  simp [cmpPaths]

theorem mergeOne_srcData (eps : σ) (c : FileMetadata σ) :
    ∀ (rest done : List (FileDirectory σ)),
      srcData ((mergeOne eps c done rest).1.reverse ++ (mergeOne eps c done rest).2) =
        srcData (done.reverse ++ rest) := by
  intro rest
  induction rest with
  | nil =>
    intro done
    simp [mergeOne, srcData_append, srcData, mkCompareEntry]
  | cons fd rs ih =>
    intro done
    by_cases h1 : compare_pathnames eps c.relPath fd.relPath > 0
    · rw [show mergeOne eps c done (fd :: rs) = mergeOne eps c (fd :: done) rs by
        simp [mergeOne, h1]]
      rw [ih (fd :: done)]
      simp
    · by_cases h2 : compare_pathnames eps c.relPath fd.relPath = 0
      · rw [show mergeOne eps c done (fd :: rs) = (markCompare fd :: done, rs) by
          simp [mergeOne, h1, h2]]
        have key : srcData (markCompare fd :: rs) = srcData (fd :: rs) := by
          simp only [srcData, List.filter_cons, markCompare]
          cases hs : fd.inSourceDir <;> simp [hs]
        simp only [List.reverse_cons, List.append_assoc, List.singleton_append]
        rw [srcData_append, srcData_append, key]
      · rw [show mergeOne eps c done (fd :: rs) = (mkCompareEntry c :: done, fd :: rs) by
          simp [mergeOne, h1, h2]]
        have key : srcData (mkCompareEntry c :: fd :: rs) = srcData (fd :: rs) := by
          simp [srcData, List.filter_cons, mkCompareEntry]
        simp only [List.reverse_cons, List.append_assoc, List.singleton_append]
        rw [srcData_append, srcData_append, key]

theorem mergeCompare_srcData (eps : σ) :
    ∀ (cs : List (FileMetadata σ)) (done rest : List (FileDirectory σ)),
      srcData (mergeCompare eps cs done rest) = srcData (done.reverse ++ rest) := by
  intro cs
  induction cs with
  | nil => intro done rest; rfl
  | cons c cs ih =>
    intro done rest
    show srcData (mergeCompare eps cs (mergeOne eps c done rest).1
      (mergeOne eps c done rest).2) = _
    rw [ih, mergeOne_srcData]

theorem mergeOne_cmpPaths (eps : σ) (c : FileMetadata σ) (hc : validSegs eps c.relPath) :
    ∀ (rest done : List (FileDirectory σ)),
      (∀ fd ∈ rest, fd.inCompareDir = false ∧ validSegs eps fd.relPath) →
      cmpPaths (mergeOne eps c done rest).1.reverse =
          cmpPaths done.reverse ++ [c.relPath] ∧
        ∀ fd ∈ (mergeOne eps c done rest).2, fd ∈ rest := by
  intro rest
  induction rest with
  | nil =>
    intro done _
    constructor
    · simp [mergeOne, cmpPaths_append, cmpPaths, mkCompareEntry]
    · intro fd hfd
      simp [mergeOne] at hfd
  | cons fd rs ih =>
    intro done hrest
    by_cases h1 : compare_pathnames eps c.relPath fd.relPath > 0
    · rw [show mergeOne eps c done (fd :: rs) = mergeOne eps c (fd :: done) rs by
        simp [mergeOne, h1]]
      have hrs : ∀ x ∈ rs, x.inCompareDir = false ∧ validSegs eps x.relPath :=
        fun x hx => hrest x (by simp [hx])
      obtain ⟨e1, e2⟩ := ih (fd :: done) hrs
      refine ⟨?_, fun x hx => by simp [e2 x hx]⟩
      rw [e1]
      simp only [List.reverse_cons]
      rw [cmpPaths_append]
      have : cmpPaths [fd] = [] := by
        simp [cmpPaths, (hrest fd (by simp)).1]
      simp [this]
    · by_cases h2 : compare_pathnames eps c.relPath fd.relPath = 0
      · rw [show mergeOne eps c done (fd :: rs) = (markCompare fd :: done, rs) by
          simp [mergeOne, h1, h2]]
        have hfdc : c.relPath = fd.relPath :=
          (cp_eq_zero_iff eps hc (hrest fd (by simp)).2).mp h2
        constructor
        · simp only [List.reverse_cons]
          rw [cmpPaths_append]
          have : cmpPaths [markCompare fd] = [fd.data.relPath] := by
            simp [cmpPaths, markCompare]
          rw [this]
          have : fd.data.relPath = c.relPath := hfdc.symm
          rw [this]
        · intro x hx; simp [hx]
      · rw [show mergeOne eps c done (fd :: rs) = (mkCompareEntry c :: done, fd :: rs) by
          simp [mergeOne, h1, h2]]
        constructor
        · simp only [List.reverse_cons]
          rw [cmpPaths_append]
          simp [cmpPaths, mkCompareEntry]
        · intro x hx; exact hx

theorem mergeCompare_cmpPaths (eps : σ) :
    ∀ (cs : List (FileMetadata σ)) (done rest : List (FileDirectory σ)),
      (∀ c ∈ cs, validSegs eps c.relPath) →
      (∀ fd ∈ rest, fd.inCompareDir = false ∧ validSegs eps fd.relPath) →
      cmpPaths (mergeCompare eps cs done rest) =
        cmpPaths done.reverse ++ cs.map (fun d => d.relPath) := by
  intro cs
  induction cs with
  | nil =>
    intro done rest _ hrest
    show cmpPaths (done.reverse ++ rest) = _
    rw [cmpPaths_append]
    have : cmpPaths rest = [] := by
      simp only [cmpPaths, List.map_eq_nil_iff, List.filter_eq_nil_iff]
      intro fd hfd
      simp [(hrest fd hfd).1]
    simp [this]
  | cons c cs ih =>
    intro done rest hcs hrest
    show cmpPaths (mergeCompare eps cs (mergeOne eps c done rest).1
      (mergeOne eps c done rest).2) = _
    obtain ⟨e1, e2⟩ := mergeOne_cmpPaths eps c (hcs c (by simp)) rest done hrest
    rw [ih _ _ (fun x hx => hcs x (by simp [hx])) (fun fd hfd => hrest fd (e2 fd hfd))]
    rw [e1]
    simp

/-- C1: buildFileSet merges the compare scan into the source scan without
disturbing either: the entries flagged inSourceDir are exactly the source
scan in order (with their metadata unchanged), and the entries flagged
inCompareDir correspond exactly, in order and path by path, to the compare
scan (a matched entry keeps the source metadata, so the correspondence is
stated on relative paths, as in the MergedEntry invariant of the spec). -/
theorem claim_C1 (eps : σ) (sourceScan compareScan : List (FileMetadata σ))
    (hSsorted : sourceScan.Pairwise
      (fun a b => compare_pathnames eps a.relPath b.relPath < 0))
    (hCsorted : compareScan.Pairwise
      (fun a b => compare_pathnames eps a.relPath b.relPath < 0))
    (hSvalid : ∀ d ∈ sourceScan, validSegs eps d.relPath)
    (hCvalid : ∀ d ∈ compareScan, validSegs eps d.relPath) :
    ((buildFileSet eps true sourceScan compareScan).filter
        fun fd => fd.inSourceDir).map (fun fd => fd.data) = sourceScan ∧
    ((buildFileSet eps true sourceScan compareScan).filter
        fun fd => fd.inCompareDir).map (fun fd => fd.data.relPath) =
      compareScan.map (fun d => d.relPath) := by
  constructor
  · show srcData _ = _
    rw [buildFileSet]
    simp only [if_pos]
    rw [mergeCompare_srcData]
    simp only [List.reverse_nil, List.nil_append]
    unfold srcData
    rw [List.filter_eq_self.mpr]
    · rw [List.map_map]
      have : ((fun fd : FileDirectory σ => fd.data) ∘ mkSourceEntry) = id :=
        funext fun d => rfl
      rw [this, List.map_id]
    · intro fd hfd
      simp only [List.mem_map] at hfd
      obtain ⟨d, _, rfl⟩ := hfd
      rfl
  · show cmpPaths _ = _
    rw [buildFileSet]
    simp only [if_pos]
    rw [mergeCompare_cmpPaths eps _ _ _ hCvalid]
    · simp [cmpPaths]
    · intro fd hfd
      simp only [List.mem_map] at hfd
      obtain ⟨d, hd, rfl⟩ := hfd
      exact ⟨rfl, hSvalid d hd⟩

/-- Witness for C1 at a concrete pair of scans. -/
theorem claim_C1_witness :
    (mergeWitnessSource.Pairwise
      (fun a b => compare_pathnames 0 a.relPath b.relPath < 0)) ∧
    (mergeWitnessCompare.Pairwise
      (fun a b => compare_pathnames 0 a.relPath b.relPath < 0)) ∧
    (∀ d ∈ mergeWitnessSource, validSegs 0 d.relPath) ∧
    (∀ d ∈ mergeWitnessCompare, validSegs 0 d.relPath) ∧
    (((buildFileSet 0 true mergeWitnessSource mergeWitnessCompare).filter
        fun fd => fd.inSourceDir).map (fun fd => fd.data) = mergeWitnessSource ∧
      ((buildFileSet 0 true mergeWitnessSource mergeWitnessCompare).filter
        fun fd => fd.inCompareDir).map (fun fd => fd.data.relPath) =
        mergeWitnessCompare.map (fun d => d.relPath)) :=
  ⟨by decide, by decide, by decide, by decide,
    claim_C1 0 mergeWitnessSource mergeWitnessCompare
      (by decide) (by decide) (by decide) (by decide)⟩

/-! ### The planner (generateActions) -/

theorem actionsFor_delete_iff (cfg : PlanConfig) (dE : List σ → Bool)
    (fE : FileMetadata σ → Bool) (nd : Option (List σ)) (el : FileDirectory σ) :
    (∃ a ∈ (actionsFor cfg dE fE nd el).1, a.type = ACTION.DELETE) ↔
      (el.inSourceDir = false ∧ el.inCompareDir = true ∧
        cfg.mode = BACKUP_MODE.MIRROR ∧
        ¬(cfg.compare_with_last_backup = true ∧ cfg.versioned = true)) := by
  unfold actionsFor
  cases hs : el.inSourceDir <;> cases hc : el.inCompareDir <;> simp only [hs, hc]
  · -- in neither: no action at all
    simp
  · -- compare only: the DELETE branch
    constructor
    · intro hex
      by_cases h : (cfg.mode = BACKUP_MODE.MIRROR &&
          (!cfg.compare_with_last_backup || !cfg.versioned) : Bool) = true
      · simp only [Bool.and_eq_true, decide_eq_true_eq, Bool.or_eq_true,
          Bool.not_eq_true'] at h
        refine ⟨by simp, by simp, h.1, ?_⟩
        rcases h.2 with h2 | h2 <;> simp [h2]
      · rw [if_neg h] at hex
        simp at hex
    · rintro ⟨-, -, hm, hnot⟩
      have h : (cfg.mode = BACKUP_MODE.MIRROR &&
          (!cfg.compare_with_last_backup || !cfg.versioned) : Bool) = true := by
        simp only [Bool.and_eq_true, decide_eq_true_eq, Bool.or_eq_true,
          Bool.not_eq_true']
        refine ⟨hm, ?_⟩
        by_cases hv : cfg.versioned = true
        · by_cases hw : cfg.compare_with_last_backup = true
          · exact absurd ⟨hw, hv⟩ hnot
          · exact Or.inl (by simpa using hw)
        · exact Or.inr (by simpa using hv)
      rw [if_pos h]
      exact ⟨_, List.mem_singleton_self _, rfl⟩
  · -- source only: only COPY actions
    split_ifs <;> simp_all
  · -- in both: COPY or HARDLINK actions
    split_ifs <;> simp_all

theorem generateActions_mem (cfg : PlanConfig) (dE : List σ → Bool)
    (fE : FileMetadata σ → Bool) :
    ∀ (fds : List (FileDirectory σ)) (st : Option (List σ))
      (a : Action σ), a ∈ generateActions cfg dE fE fds st →
      ∃ el ∈ fds, ∃ nd, a ∈ (actionsFor cfg dE fE nd el).1 := by
  intro fds
  induction fds with
  | nil => intro st a ha; simp [generateActions] at ha
  | cons el els ih =>
    intro st a ha
    rw [generateActions] at ha
    rcases List.mem_append.mp ha with h | h
    · exact ⟨el, by simp, st, h⟩
    · obtain ⟨el2, hmem, nd, hnd⟩ := ih _ a h
      exact ⟨el2, by simp [hmem], nd, hnd⟩

/-- C3: a DELETE action is generated for an entry exactly when the entry is
present only in the compare directory, the mode is mirror, and not both
compare_with_last_backup and versioned are set; consequently no DELETE is
ever generated in hardlink or save mode. -/
theorem claim_C3 (cfg : PlanConfig) (dE : List σ → Bool)
    (fE : FileMetadata σ → Bool) (nd : Option (List σ)) (el : FileDirectory σ)
    (fds : List (FileDirectory σ)) (st : Option (List σ)) :
    ((∃ a ∈ (actionsFor cfg dE fE nd el).1, a.type = ACTION.DELETE) ↔
      (el.inSourceDir = false ∧ el.inCompareDir = true ∧
        cfg.mode = BACKUP_MODE.MIRROR ∧
        ¬(cfg.compare_with_last_backup = true ∧ cfg.versioned = true))) ∧
    (cfg.mode ≠ BACKUP_MODE.MIRROR →
      ∀ a ∈ generateActions cfg dE fE fds st, a.type ≠ ACTION.DELETE) := by
  refine ⟨actionsFor_delete_iff cfg dE fE nd el, ?_⟩
  intro hmode a ha hdel
  obtain ⟨el2, _, nd2, hnd2⟩ := generateActions_mem cfg dE fE fds st a ha
  have := (actionsFor_delete_iff cfg dE fE nd2 el2).mp ⟨a, hnd2, hdel⟩
  exact hmode this.2.2.1

/-- Witness for C3: in hardlink mode a compare-only entry yields no DELETE. -/
theorem claim_C3_witness :
    planWitnessCfg.mode ≠ BACKUP_MODE.MIRROR ∧
    ((∃ a ∈ (actionsFor planWitnessCfg (fun _ => false) (fun _ => true) none
        planWitnessEl).1, a.type = ACTION.DELETE) ↔
      (planWitnessEl.inSourceDir = false ∧ planWitnessEl.inCompareDir = true ∧
        planWitnessCfg.mode = BACKUP_MODE.MIRROR ∧
        ¬(planWitnessCfg.compare_with_last_backup = true ∧
          planWitnessCfg.versioned = true))) ∧
    (∀ a ∈ generateActions planWitnessCfg (fun _ => false) (fun _ => true)
        [planWitnessEl] none, a.type ≠ ACTION.DELETE) :=
  ⟨by decide,
    (claim_C3 planWitnessCfg (fun _ => false) (fun _ => true) none planWitnessEl
      [planWitnessEl] none).1,
    (claim_C3 planWitnessCfg (fun _ => false) (fun _ => true) none planWitnessEl
      [planWitnessEl] none).2 (by decide)⟩

theorem actionsFor_hardlink (cfg : PlanConfig) (dE : List σ → Bool)
    (fE : FileMetadata σ → Bool) (nd : Option (List σ)) (el : FileDirectory σ) :
    ∀ a ∈ (actionsFor cfg dE fE nd el).1, a.type = ACTION.HARDLINK →
      a.isDir = false ∧ el.inCompareDir = true := by
  intro a ha htype
  unfold actionsFor at ha
  cases hs : el.inSourceDir <;> cases hc : el.inCompareDir <;> rw [hs, hc] at ha <;>
    [skip; skip; skip; skip] <;>
    (split_ifs at ha <;>
      simp only [List.mem_singleton, List.not_mem_nil] at ha <;>
      try subst ha) <;>
    simp_all

theorem buildFileSet_no_compare (eps : σ) (S C : List (FileMetadata σ)) :
    ∀ fd ∈ buildFileSet eps false S C, fd.inCompareDir = false := by
  intro fd hfd
  unfold buildFileSet at hfd
  simp only [if_neg Bool.false_ne_true, List.mem_map] at hfd
  obtain ⟨d, _, rfl⟩ := hfd
  rfl

/-- C4: every HARDLINK action emitted by the planner on a merged list built
by buildFileSet is a file action, and one can only exist when the tree has a
compare directory; hence the compareDir assertion in the HARDLINK branch of
executeActionList cannot fail on a planner-generated action list. -/
theorem claim_C4 (eps : σ) (cfg : PlanConfig) (dE : List σ → Bool)
    (fE : FileMetadata σ → Bool) (compareDir : Option (List σ))
    (sourceScan compareScan : List (FileMetadata σ)) :
    ∀ a ∈ generateActions cfg dE fE
        (buildFileSet eps compareDir.isSome sourceScan compareScan) none,
      a.type = ACTION.HARDLINK → a.isDir = false ∧ compareDir.isSome = true := by
  intro a ha htype
  obtain ⟨el, hel, nd, hnd⟩ := generateActions_mem cfg dE fE _ none a ha
  obtain ⟨hdir, hcmp⟩ := actionsFor_hardlink cfg dE fE nd el a hnd htype
  refine ⟨hdir, ?_⟩
  cases hq : compareDir.isSome
  · rw [hq] at hel
    have := buildFileSet_no_compare eps sourceScan compareScan el hel
    rw [this] at hcmp
    cases hcmp
  · rfl

/-- Witness for C4: a concrete unchanged file in hardlink mode produces a
HARDLINK action, and the compare directory is present. -/
theorem claim_C4_witness :
    (⟨ACTION.HARDLINK, false, [1], 3, HTMLFLAG.NONE⟩ : Action ℕ) ∈
      generateActions planWitnessCfg (fun _ => false) (fun _ => true)
        (buildFileSet 0 (some [5] : Option (List ℕ)).isSome
          hardlinkWitnessScan hardlinkWitnessScan) none ∧
    (⟨ACTION.HARDLINK, false, [1], 3, HTMLFLAG.NONE⟩ : Action ℕ).type =
      ACTION.HARDLINK ∧
    ((⟨ACTION.HARDLINK, false, [1], 3, HTMLFLAG.NONE⟩ : Action ℕ).isDir = false ∧
      (some [5] : Option (List ℕ)).isSome = true) :=
  ⟨by decide, by decide,
    claim_C4 0 planWitnessCfg (fun _ => false) (fun _ => true) (some [5])
      hardlinkWitnessScan hardlinkWitnessScan
      ⟨ACTION.HARDLINK, false, [1], 3, HTMLFLAG.NONE⟩ (by decide) (by decide)⟩

/-! ### The executor ordering (iterate_actions) -/

theorem pairwiseOfMemLeft {α : Type} {R : α → α → Prop} :
    ∀ {l : List α}, (∀ a ∈ l, ∀ b, R a b) → l.Pairwise R := by
  intro l h
  induction l with
  | nil => exact List.Pairwise.nil
  | cons x xs ih =>
    exact List.Pairwise.cons (fun b _ => h x (by simp) b)
      (ih fun a ha b => h a (by simp [ha]) b)

/-- C5: iterate_actions yields the non-DELETE actions in original order
followed by the DELETE actions in reverse order; if the input lists every
directory before everything beneath it, then in the yielded order no DELETE
of a directory ever precedes a DELETE of a path strictly inside it. -/
theorem claim_C5 (l : List (Action σ))
    (h : l.Pairwise fun a b =>
      ¬(pathStarts b.relPath a.relPath = true ∧ b.relPath ≠ a.relPath)) :
    iterate_actions l =
      (l.filter fun a => decide (a.type ≠ ACTION.DELETE)) ++
        (l.reverse.filter fun a => decide (a.type = ACTION.DELETE)) ∧
    (iterate_actions l).Pairwise fun a b =>
      ¬(a.type = ACTION.DELETE ∧ a.isDir = true ∧ b.type = ACTION.DELETE ∧
        pathStarts a.relPath b.relPath = true ∧ a.relPath ≠ b.relPath) := by
  refine ⟨rfl, ?_⟩
  rw [iterate_actions, List.pairwise_append]
  refine ⟨?_, ?_, ?_⟩
  · apply pairwiseOfMemLeft
    intro a ha b hcontra
    have hne : a.type ≠ ACTION.DELETE := by
      simpa using List.of_mem_filter ha
    exact hne hcontra.1
  · have h1 : l.reverse.Pairwise fun a b =>
        ¬(pathStarts a.relPath b.relPath = true ∧ a.relPath ≠ b.relPath) := by
      rw [List.pairwise_reverse]
      exact h
    have h2 := h1.sublist
      (@List.filter_sublist (Action σ)
        (fun a => decide (a.type = ACTION.DELETE)) l.reverse)
    exact h2.imp fun hab hcontra => hab ⟨hcontra.2.2.2.1, hcontra.2.2.2.2⟩
  · intro a ha b _ hcontra
    have hne : a.type ≠ ACTION.DELETE := by
      simpa using List.of_mem_filter ha
    exact hne hcontra.1

/-- Witness for C5 on a two-element DELETE list (a directory and a file
inside it, listed top-down). -/
theorem claim_C5_witness :
    (deleteWitnessActions.Pairwise fun a b =>
      ¬(pathStarts b.relPath a.relPath = true ∧ b.relPath ≠ a.relPath)) ∧
    (iterate_actions deleteWitnessActions =
      (deleteWitnessActions.filter fun a => decide (a.type ≠ ACTION.DELETE)) ++
        (deleteWitnessActions.reverse.filter
          fun a => decide (a.type = ACTION.DELETE)) ∧
    (iterate_actions deleteWitnessActions).Pairwise fun a b =>
      ¬(a.type = ACTION.DELETE ∧ a.isDir = true ∧ b.type = ACTION.DELETE ∧
        pathStarts a.relPath b.relPath = true ∧ a.relPath ≠ b.relPath)) :=
  ⟨by decide, claim_C5 deleteWitnessActions (by decide)⟩

/-! ### File equality (filesEq) -/

theorem filesEqLoop_iff (sourceFile : FileMetadata σ) (compareStat : StatResult)
    (bytewise : Option Bool) :
    ∀ methods : List COMPARE_METHOD,
      (filesEqLoop sourceFile compareStat bytewise methods).getD false = true ↔
        ∀ m ∈ methods, methodPasses sourceFile compareStat bytewise m := by
  intro methods
  induction methods with
  | nil => simp [filesEqLoop]
  | cons m rest ih =>
    cases m with
    | MODDATE =>
      by_cases hd : |sourceFile.modTime - compareStat.st_mtime| ≥ MAXTIMEDELTA
      · rw [show filesEqLoop sourceFile compareStat bytewise (.MODDATE :: rest) =
            some false by simp [filesEqLoop, hd]]
        simp only [Option.getD_some, Bool.false_eq_true, false_iff]
        intro hall
        exact absurd (hall .MODDATE (by simp)) (by simp [methodPasses]; omega)
      · rw [show filesEqLoop sourceFile compareStat bytewise (.MODDATE :: rest) =
            filesEqLoop sourceFile compareStat bytewise rest by
          simp [filesEqLoop, hd]]
        rw [ih]
        constructor
        · intro hall m hm
          rcases List.mem_cons.mp hm with rfl | hm2
          · simp only [methodPasses]
            omega
          · exact hall m hm2
        · intro hall m hm
          exact hall m (by simp [hm])
    | SIZE =>
      by_cases hd : sourceFile.fileSize = compareStat.st_size
      · rw [show filesEqLoop sourceFile compareStat bytewise (.SIZE :: rest) =
            filesEqLoop sourceFile compareStat bytewise rest by
          simp [filesEqLoop, hd]]
        rw [ih]
        constructor
        · intro hall m hm
          rcases List.mem_cons.mp hm with rfl | hm2
          · exact hd
          · exact hall m hm2
        · intro hall m hm
          exact hall m (by simp [hm])
      · rw [show filesEqLoop sourceFile compareStat bytewise (.SIZE :: rest) =
            some false by simp [filesEqLoop, hd]]
        simp only [Option.getD_some, Bool.false_eq_true, false_iff]
        intro hall
        exact hd (hall .SIZE (by simp))
    | BYTES =>
      cases hb : bytewise with
      | none =>
        rw [hb] at ih
        rw [show filesEqLoop sourceFile compareStat none (.BYTES :: rest) =
            none by simp [filesEqLoop]]
        simp only [Option.getD_none, Bool.false_eq_true, false_iff]
        intro hall
        exact absurd (hall .BYTES (by simp)) (by simp [methodPasses])
      | some b =>
        rw [hb] at ih
        cases b with
        | false =>
          rw [show filesEqLoop sourceFile compareStat (some false) (.BYTES :: rest) =
              some false by simp [filesEqLoop]]
          simp only [Option.getD_some, Bool.false_eq_true, false_iff]
          intro hall
          exact absurd (hall .BYTES (by simp)) (by simp [methodPasses])
        | true =>
          rw [show filesEqLoop sourceFile compareStat (some true) (.BYTES :: rest) =
              filesEqLoop sourceFile compareStat (some true) rest by
            simp [filesEqLoop]]
          rw [ih]
          constructor
          · intro hall m hm
            rcases List.mem_cons.mp hm with rfl | hm2
            · show (some true : Option Bool) = some true
              rfl
            · exact hall m hm2
          · intro hall m hm
            exact hall m (by simp [hm])

/-- C6: filesEq returns true exactly when the stat of the compare path
succeeded and every configured comparator passes (MODDATE within 1
microsecond, SIZE on equal sizes, BYTES when the bytewise comparison
succeeded); a failed stat or a raising comparator makes it return false
instead of propagating. -/
theorem claim_C6 (sourceFile : FileMetadata σ) (statRes : Option StatResult)
    (bytewise : Option Bool) (compare_methods : List COMPARE_METHOD) :
    filesEq sourceFile statRes bytewise compare_methods = true ↔
      ∃ compareStat, statRes = some compareStat ∧
        ∀ m ∈ compare_methods, methodPasses sourceFile compareStat bytewise m := by
  cases statRes with
  | none =>
    simp [filesEq]
  | some compareStat =>
    rw [show filesEq sourceFile (some compareStat) bytewise compare_methods =
        (filesEqLoop sourceFile compareStat bytewise compare_methods).getD false
      from rfl]
    rw [filesEqLoop_iff]
    simp

/-! ### The backup-phase verdict (performBackupPhase) -/

/-- Counterexample to C7: for max_backup_errors = -2 and zero backup errors
the claim predicate (max_backup_errors < 0, or errors within budget) holds,
yet the code computes successful = false, because only the exact value -1
disables the budget. -/
theorem counterexample_C7 :
    (finalizeMetadata ⟨true, 0⟩ (-2) 0).successful = false ∧
      ((-2 : Int) < 0 ∨ ((0 : Nat) : Int) ≤ -2) := by
  constructor
  · rfl
  · left
    decide

/-- C7 (amended): at the end of performBackupPhase the metadata successful
flag is rewritten to true exactly when max_backup_errors equals -1 or
backup_errors is at most max_backup_errors; only the specific value -1
(not every negative value) disables the backup-phase error budget. -/
theorem claim_C7_amended (meta : BackupMetadata) (max_backup_errors : Int)
    (backup_errors : Nat) :
    (finalizeMetadata meta max_backup_errors backup_errors).successful = true ↔
      (max_backup_errors = -1 ∨ (backup_errors : Int) ≤ max_backup_errors) := by
  simp [finalizeMetadata, backupPhaseSuccessful]

/-! ### Empty directories in the planner -/

/-- Counterexample to C8: a source-only empty directory is copied although
copy_empty_dirs is false, and tagged NEW_DIR rather than EMPTY_DIR. -/
theorem counterexample_C8 :
    generateActions (⟨.HARDLINK, true, true, false⟩ : PlanConfig)
        (fun _ => true) (fun _ => true)
        [(⟨⟨[1], true, 0, 0⟩, true, false⟩ : FileDirectory ℕ)] none =
      [⟨ACTION.COPY, true, [1], 0, HTMLFLAG.NEW_DIR⟩] ∧
    (⟨.HARDLINK, true, true, false⟩ : PlanConfig).copy_empty_dirs = false := by
  constructor
  · rfl
  · rfl

/-- C8 (amended): a source-only directory (in particular an empty one) is
always copied, tagged IN_NEW_DIR under the current new-directory root and
NEW_DIR otherwise, regardless of copy_empty_dirs; the
copy-iff-copy_empty_dirs EMPTY_DIR rule instead governs empty directories
present in both source and compare when versioned and
compare_with_last_backup are set. -/
theorem claim_C8_amended (cfg : PlanConfig) (dE : List σ → Bool)
    (fE : FileMetadata σ → Bool) (st : Option (List σ))
    (el1 el2 : FileDirectory σ) :
    (el1.isDirectory = true → dE el1.relPath = true → el1.inSourceDir = true →
      el1.inCompareDir = false →
      (actionsFor cfg dE fE st el1).1 =
        [⟨ACTION.COPY, true, el1.relPath, el1.modTime,
          if isRelToNewDir st el1.relPath then HTMLFLAG.IN_NEW_DIR
          else HTMLFLAG.NEW_DIR⟩]) ∧
    (el2.isDirectory = true → dE el2.relPath = true → el2.inSourceDir = true →
      el2.inCompareDir = true → cfg.versioned = true →
      cfg.compare_with_last_backup = true →
      (actionsFor cfg dE fE st el2).1 =
        if cfg.copy_empty_dirs then
          [⟨ACTION.COPY, true, el2.relPath, el2.modTime, HTMLFLAG.EMPTY_DIR⟩]
        else []) := by
  constructor
  · intro hdir hempty hs hc
    unfold actionsFor
    rw [hs, hc]
    simp only [Bool.not_false, Bool.and_true, if_true]
    by_cases hrel : isRelToNewDir st el1.relPath
    · simp [hrel, hdir]
    · simp only [Bool.not_eq_true] at hrel
      simp [hrel, hdir]
  · intro hdir hempty hs hc hv hw
    unfold actionsFor
    rw [hs, hc]
    simp only [Bool.not_true, Bool.and_false, Bool.false_eq_true, if_false,
      Bool.and_true, if_true]
    simp [hdir, hv, hw, hempty]

/-- Witness for C8 (amended) with copy_empty_dirs = false: the source-only
empty directory is still copied with the NEW_DIR tag, while the empty
directory present in both trees produces no action. -/
theorem claim_C8_witness :
    (emptyDirWitnessNew.isDirectory = true ∧ emptyDirWitnessNew.inSourceDir = true ∧
      emptyDirWitnessNew.inCompareDir = false ∧
      emptyDirWitnessBoth.isDirectory = true ∧ emptyDirWitnessBoth.inSourceDir = true ∧
      emptyDirWitnessBoth.inCompareDir = true ∧
      emptyDirWitnessCfg.versioned = true ∧
      emptyDirWitnessCfg.compare_with_last_backup = true ∧
      emptyDirWitnessCfg.copy_empty_dirs = false) ∧
    (actionsFor emptyDirWitnessCfg (fun _ => true) (fun _ => true) none
        emptyDirWitnessNew).1 =
      [⟨ACTION.COPY, true, emptyDirWitnessNew.relPath, emptyDirWitnessNew.modTime,
        if isRelToNewDir none emptyDirWitnessNew.relPath then HTMLFLAG.IN_NEW_DIR
        else HTMLFLAG.NEW_DIR⟩] ∧
    (actionsFor emptyDirWitnessCfg (fun _ => true) (fun _ => true) none
        emptyDirWitnessBoth).1 =
      (if emptyDirWitnessCfg.copy_empty_dirs then
        [⟨ACTION.COPY, true, emptyDirWitnessBoth.relPath,
          emptyDirWitnessBoth.modTime, HTMLFLAG.EMPTY_DIR⟩]
      else []) :=
  ⟨by decide,
    (claim_C8_amended emptyDirWitnessCfg (fun _ => true) (fun _ => true) none
      emptyDirWitnessNew emptyDirWitnessBoth).1
      (by decide) (by decide) (by decide) (by decide),
    (claim_C8_amended emptyDirWitnessCfg (fun _ => true) (fun _ => true) none
      emptyDirWitnessNew emptyDirWitnessBoth).2
      (by decide) (by decide) (by decide) (by decide) (by decide) (by decide)⟩

/-! ### DELETE of a missing path in the executor -/

/-- C10: applying a DELETE action whose target path does not exist is
treated as success: files_deleted is still incremented while bytes_deleted
and backup_errors are unchanged, whatever the failure oracles say. -/
theorem claim_C10 (unlinkOk rmtreeOk : Bool) (st : ExecStats) :
    executeDeleteAction PathState.missing unlinkOk rmtreeOk st =
      { st with files_deleted := st.files_deleted + 1 } ∧
    (executeDeleteAction PathState.missing unlinkOk rmtreeOk st).files_deleted =
      st.files_deleted + 1 ∧
    (executeDeleteAction PathState.missing unlinkOk rmtreeOk st).bytes_deleted =
      st.bytes_deleted ∧
    (executeDeleteAction PathState.missing unlinkOk rmtreeOk st).backup_errors =
      st.backup_errors := by
  exact ⟨rfl, rfl, rfl, rfl⟩

/-! ### The ordered walk (relativeWalkMountedDir) -/

theorem attachFlatMapEq {α β : Type} (l : List α) (f : α → List β) :
    l.attach.flatMap (fun c => f c.1) = l.flatMap f := by
  rw [List.flatMap, List.flatMap]
  congr 1
  exact List.attach_map_coe l f

theorem mem_sortScandir {c : FSTree σ} {cs : List (FSTree σ)} :
    c ∈ sortScandir cs ↔ c ∈ cs := List.mem_insertionSort nameLE

/-- Unfolding lemma: the directory case of walkEntry yields the directory
entry followed by the walk of its sorted children. -/
theorem walkEntry_dir (excl statFail : List σ → Bool) (rel : List σ) (n : σ)
    (sz mt : Int) (cs : List (FSTree σ)) :
    walkEntry excl statFail rel (.dir n sz mt cs) =
      if excl (rel ++ [n]) then [] else if statFail (rel ++ [n]) then []
      else ⟨rel ++ [n], true, mt, sz⟩ :: walkList excl statFail (rel ++ [n]) cs := by
  rw [walkList, ← attachFlatMapEq]
  simp only [walkEntry]

theorem walkList_mem (excl statFail : List σ → Bool) (rel : List σ)
    (cs : List (FSTree σ)) (e : FileMetadata σ)
    (he : e ∈ walkList excl statFail rel cs) :
    ∃ c ∈ cs, e ∈ walkEntry excl statFail rel c := by
  rw [walkList] at he
  rcases List.mem_flatMap.mp he with ⟨c, hc, hce⟩
  exact ⟨c, mem_sortScandir.mp hc, hce⟩

/-- The sorted scandir listing of a directory with distinct entry names is
strictly increasing on names. -/
theorem sortScandir_lt (cs : List (FSTree σ)) (h : (cs.map FSTree.name).Nodup) :
    (sortScandir cs).Pairwise fun a b => a.name < b.name := by
  have hsorted : (sortScandir cs).Pairwise nameLE := by
    haveI : IsTotal (FSTree σ) nameLE := ⟨fun a b => le_total a.name b.name⟩
    haveI : IsTrans (FSTree σ) nameLE := ⟨fun a b c hab hbc => le_trans hab hbc⟩
    exact List.sorted_insertionSort nameLE cs
  have hnodup : ((sortScandir cs).map FSTree.name).Nodup :=
    (((List.perm_insertionSort nameLE cs).map FSTree.name).nodup_iff).mpr h
  have hne : (sortScandir cs).Pairwise fun a b => a.name ≠ b.name :=
    List.pairwise_map.mp hnodup
  exact (hsorted.and hne).imp fun hab => lt_of_le_of_ne hab.1 hab.2

/-- Every entry yielded by walking an entry t of the directory at rel has a
relative path extending rel by t's name, with all added segments real. -/
theorem walkEntry_shape (eps : σ) (excl statFail : List σ → Bool) :
    ∀ (n : ℕ) (t : FSTree σ), sizeOf t ≤ n → FSTree.Valid eps t →
      ∀ (rel : List σ), ∀ e ∈ walkEntry excl statFail rel t,
        ∃ u, e.relPath = rel ++ t.name :: u ∧ validSegs eps (t.name :: u) := by
  intro n
  induction n with
  | zero =>
    intro t hle
    exact absurd hle (by
      cases t <;>
        simp only [FSTree.file.sizeOf_spec, FSTree.other.sizeOf_spec,
          FSTree.dir.sizeOf_spec] <;>
        omega)
  | succ n ih =>
    intro t hle hv rel e he
    cases t with
    | file nm sz mt =>
      simp only [walkEntry] at he
      split_ifs at he with h1 h2
      · simp at he
      · simp at he
      · simp only [List.mem_singleton] at he
        subst he
        refine ⟨[], by simp [FSTree.name], ?_⟩
        intro s hs
        simp only [List.mem_singleton] at hs
        subst hs
        cases hv with
        | file hn => exact hn
    | other nm =>
      simp only [walkEntry] at he
      split_ifs at he <;> simp at he
    | dir nm sz mt cs =>
      rw [walkEntry_dir] at he
      split_ifs at he with h1 h2
      · simp at he
      · simp at he
      · cases hv with
        | dir hn hnd hvc =>
          rcases List.mem_cons.mp he with rfl | he2
          · refine ⟨[], by simp [FSTree.name], ?_⟩
            intro s hs
            simp only [List.mem_singleton] at hs
            subst hs
            exact hn
          · obtain ⟨c, hc, hce⟩ := walkList_mem excl statFail (rel ++ [nm]) cs e he2
            have hsz : sizeOf c ≤ n := by
              have := List.sizeOf_lt_of_mem hc
              simp only [FSTree.dir.sizeOf_spec] at hle
              omega
            obtain ⟨u, hu, hval⟩ := ih c hsz (hvc c hc) (rel ++ [nm]) e hce
            refine ⟨c.name :: u, ?_, ?_⟩
            · rw [hu]
              simp [FSTree.name]
            · intro s hs
              rcases List.mem_cons.mp hs with rfl | hs2
              · exact hn
              · exact hval s hs2

/-- Assembly: the walk of a directory listing with distinct real names is
strictly sorted provided each entry walks sorted and shaped. -/
theorem walkList_pairwise (eps : σ) (excl statFail : List σ → Bool)
    (rel : List σ) (cs : List (FSTree σ))
    (hnodup : (cs.map FSTree.name).Nodup)
    (hpair : ∀ c ∈ cs, (walkEntry excl statFail rel c).Pairwise
      fun a b => compare_pathnames eps a.relPath b.relPath < 0)
    (hshape : ∀ c ∈ cs, ∀ e ∈ walkEntry excl statFail rel c,
      ∃ u, e.relPath = rel ++ c.name :: u ∧ validSegs eps (c.name :: u)) :
    (walkList excl statFail rel cs).Pairwise
      fun a b => compare_pathnames eps a.relPath b.relPath < 0 := by
  rw [walkList,
    show (sortScandir cs).flatMap (walkEntry excl statFail rel) =
      ((sortScandir cs).map (walkEntry excl statFail rel)).flatten from rfl,
    List.pairwise_flatten]
  constructor
  · intro l hl
    rcases List.mem_map.mp hl with ⟨c, hc, rfl⟩
    exact hpair c (mem_sortScandir.mp hc)
  · rw [List.pairwise_map]
    refine List.Pairwise.imp_of_mem ?_ (sortScandir_lt cs hnodup)
    intro c₁ c₂ hc₁ hc₂ hname x hx y hy
    obtain ⟨u, hu, _⟩ := hshape c₁ (mem_sortScandir.mp hc₁) x hx
    obtain ⟨v, hv2, _⟩ := hshape c₂ (mem_sortScandir.mp hc₂) y hy
    rw [hu, hv2, cp_append, cp_head_lt eps hname]
    decide

/-- The walk of a well-formed entry is strictly sorted under
compare_pathnames. -/
theorem walkEntry_pairwise (eps : σ) (excl statFail : List σ → Bool) :
    ∀ (n : ℕ) (t : FSTree σ), sizeOf t ≤ n → FSTree.Valid eps t →
      ∀ (rel : List σ), (walkEntry excl statFail rel t).Pairwise
        fun a b => compare_pathnames eps a.relPath b.relPath < 0 := by
  intro n
  induction n with
  | zero =>
    intro t hle
    exact absurd hle (by
      cases t <;>
        simp only [FSTree.file.sizeOf_spec, FSTree.other.sizeOf_spec,
          FSTree.dir.sizeOf_spec] <;>
        omega)
  | succ n ih =>
    intro t hle hv rel
    cases t with
    | file nm sz mt =>
      simp only [walkEntry]
      split_ifs <;> simp
    | other nm =>
      simp only [walkEntry]
      split_ifs <;> simp
    | dir nm sz mt cs =>
      rw [walkEntry_dir]
      split_ifs with h1 h2
      · simp
      · simp
      · cases hv with
        | dir hn hnd hvc =>
          have hszc : ∀ c ∈ cs, sizeOf c ≤ n := by
            intro c hc
            have := List.sizeOf_lt_of_mem hc
            simp only [FSTree.dir.sizeOf_spec] at hle
            omega
          refine List.Pairwise.cons ?_ ?_
          · intro e he
            obtain ⟨c, hc, hce⟩ := walkList_mem excl statFail (rel ++ [nm]) cs e he
            obtain ⟨u, hu, hval⟩ := walkEntry_shape eps excl statFail n c
              (hszc c hc) (hvc c hc) (rel ++ [nm]) e hce
            rw [hu, cp_lt_extension eps (rel ++ [nm]) (hval c.name (by simp)) u]
            decide
          · exact walkList_pairwise eps excl statFail (rel ++ [nm]) cs hnd
              (fun c hc => ih c (hszc c hc) (hvc c hc) (rel ++ [nm]))
              (fun c hc => walkEntry_shape eps excl statFail n c (hszc c hc)
                (hvc c hc) (rel ++ [nm]))

/-- All paths yielded by the walk consist of real segments. -/
theorem relativeWalk_validSegs (eps : σ) (excl statFail : List σ → Bool)
    (root : FSTree σ) (hv : FSTree.Valid eps root) :
    ∀ e ∈ relativeWalkMountedDir excl statFail root, validSegs eps e.relPath := by
  intro e he
  cases root with
  | file nm sz mt => simp [relativeWalkMountedDir] at he
  | other nm => simp [relativeWalkMountedDir] at he
  | dir nm sz mt cs =>
    rw [relativeWalkMountedDir] at he
    obtain ⟨c, hc, hce⟩ := walkList_mem excl statFail [] cs e he
    cases hv with
    | dir hn hnd hvc =>
      obtain ⟨u, hu, hval⟩ := walkEntry_shape eps excl statFail (sizeOf c) c
        le_rfl (hvc c hc) [] e hce
      rw [hu]
      intro s hs
      simp only [List.nil_append] at hs
      exact hval s hs

theorem pathStarts_exists : ∀ {p q : List σ}, pathStarts p q = true →
    ∃ u, q = p ++ u := by
  intro p
  induction p with
  | nil => intro q _; exact ⟨q, rfl⟩
  | cons a as ih =>
    intro q h
    cases q with
    | nil => simp [pathStarts] at h
    | cons b bs =>
      rw [pathStarts] at h
      by_cases hab : a = b
      · subst hab
        rw [if_pos rfl] at h
        obtain ⟨u, hu⟩ := ih h
        exact ⟨u, by rw [hu]; rfl⟩
      · rw [if_neg hab] at h
        cases h

/-- C2: the sequence yielded by relativeWalkMountedDir on a well-formed tree
(real entry names, distinct names per directory) is strictly increasing
under compare_pathnames; in particular no yielded entry is followed by an
entry whose path is a proper prefix of it, i.e. every directory entry is
yielded before every entry of its subtree. -/
theorem claim_C2 (eps : σ) (excl statFail : List σ → Bool) (root : FSTree σ)
    (hv : FSTree.Valid eps root) :
    (relativeWalkMountedDir excl statFail root).Pairwise
      (fun a b => compare_pathnames eps a.relPath b.relPath < 0) ∧
    (relativeWalkMountedDir excl statFail root).Pairwise
      (fun a b => ¬(pathStarts b.relPath a.relPath = true ∧
        b.relPath ≠ a.relPath)) := by
  have hmain : (relativeWalkMountedDir excl statFail root).Pairwise
      fun a b => compare_pathnames eps a.relPath b.relPath < 0 := by
    cases root with
    | file nm sz mt => simp [relativeWalkMountedDir]
    | other nm => simp [relativeWalkMountedDir]
    | dir nm sz mt cs =>
      rw [relativeWalkMountedDir]
      cases hv with
      | dir hn hnd hvc =>
        exact walkList_pairwise eps excl statFail [] cs hnd
          (fun c hc => walkEntry_pairwise eps excl statFail (sizeOf c) c
            le_rfl (hvc c hc) [])
          (fun c hc => walkEntry_shape eps excl statFail (sizeOf c) c
            le_rfl (hvc c hc) [])
  refine ⟨hmain, ?_⟩
  have hvalid := relativeWalk_validSegs eps excl statFail root hv
  refine hmain.imp_of_mem ?_
  intro a b ha _ hlt hcontra
  obtain ⟨hstart, hne⟩ := hcontra
  obtain ⟨u, hu⟩ := pathStarts_exists hstart
  cases u with
  | nil =>
    exact hne (by simpa using hu.symm)
  | cons x u2 =>
    have hx : eps < x := hvalid a ha x (by simp [hu])
    rw [hu, cp_gt_extension eps b.relPath hx u2] at hlt
    exact absurd hlt (by decide)

/-- Witness for C2 on a concrete tree with unsorted children. -/
theorem claim_C2_witness :
    FSTree.Valid 0 walkWitnessTree ∧
    ((relativeWalkMountedDir (fun _ => false) (fun _ => false)
        walkWitnessTree).Pairwise
      (fun a b => compare_pathnames 0 a.relPath b.relPath < 0) ∧
    (relativeWalkMountedDir (fun _ => false) (fun _ => false)
        walkWitnessTree).Pairwise
      (fun a b => ¬(pathStarts b.relPath a.relPath = true ∧
        b.relPath ≠ a.relPath))) := by
  have hv : FSTree.Valid 0 walkWitnessTree := by
    refine FSTree.Valid.dir (by decide) (by decide) ?_
    intro c hc
    simp only [walkWitnessTree, List.mem_cons, List.not_mem_nil, or_false] at hc
    rcases hc with rfl | rfl
    · refine FSTree.Valid.dir (by decide) (by decide) ?_
      intro c hc
      simp only [List.mem_cons, List.not_mem_nil, or_false] at hc
      subst hc
      exact FSTree.Valid.file (by decide)
    · exact FSTree.Valid.file (by decide)
  exact ⟨hv, claim_C2 0 (fun _ => false) (fun _ => false) walkWitnessTree hv⟩

/-- C9 (code evaluation at the failing input): scanning a directory whose
stat reports st_size = 4096 yields a FileMetadata with isDirectory = true
and fileSize = 4096, not 0 as documented. -/
theorem claim_C9 :
    relativeWalkMountedDir (fun _ => false) (fun _ => false)
        (FSTree.dir 0 0 0 [FSTree.dir 1 4096 7 []] : FSTree ℕ) =
      [⟨[1], true, 7, 4096⟩] ∧
    ∃ e ∈ relativeWalkMountedDir (fun _ => false) (fun _ => false)
        (FSTree.dir 0 0 0 [FSTree.dir 1 4096 7 []] : FSTree ℕ),
      e.isDirectory = true ∧ e.fileSize ≠ 0 := by
  have heval : relativeWalkMountedDir (fun _ => false) (fun _ => false)
      (FSTree.dir 0 0 0 [FSTree.dir 1 4096 7 []] : FSTree ℕ) =
      [⟨[1], true, 7, 4096⟩] := by
    rw [relativeWalkMountedDir, walkList]
    rw [show sortScandir [FSTree.dir 1 4096 7 []] = [FSTree.dir 1 4096 7 []]
      from rfl]
    rw [show ([FSTree.dir 1 4096 7 ([] : List (FSTree ℕ))].flatMap
        (walkEntry (fun _ => false) (fun _ => false) [])) =
      walkEntry (fun _ => false) (fun _ => false) [] (FSTree.dir 1 4096 7 []) ++ []
      from rfl]
    rw [walkEntry_dir]
    simp [walkList, sortScandir]
  refine ⟨heval, ⟨⟨[1], true, 7, 4096⟩, ?_, by decide, by decide⟩⟩
  rw [heval]
  simp

end Frontdown
